import Mathlib

/-!
Verification of the tournament-tree (segment-tree) Range Maximum Query engine
from `ttree.ll` (LLVM IR) together with its C interop layer.

The heap is modelled as a total map from `Int` (cell index) to `Int` (i64 cell
content); `ll_malloc` zero-initialises the backing array, so the initial memory
is the constant-zero map.  Machine `i64` arithmetic is modelled on `Int` with an
explicit two's-complement wrap `(x + 2^63) % 2^64 - 2^63` at every `add`/`sub`/
`mul`, and `lshr` as division by two of the unsigned bit pattern `x % 2^64`.
Signed comparisons (`slt`, `sgt`, `sle`, `sge`) on in-range representatives are
plain `Int` comparisons.

The two recursive IR functions `build` and `range_maximum` are embedded with an
explicit fuel parameter returning `Option`: `none` means the recursion did not
finish within `fuel` nested calls, so `∀ fuel, f fuel x = none` expresses
divergence at `x`, and termination is `(f fuel x).isSome` for a suitable fuel.
`range_maximum` threads the memory through, mirroring the IR where every call
reads the same mutable heap; its result is the pair (returned value, heap).
-/

/-- Heap memory: one i64 cell per `Int` index. -/
abbrev Mem := Int → Int

/-- Two's-complement wrap of an i64 result to its representative in
`[-2^63, 2^63)`. -/
def wrap (x : Int) : Int := (x + 2 ^ 63) % 2 ^ 64 - 2 ^ 63

/-- `lshr` by one: logical shift right of the 64-bit pattern `x % 2^64`.
The result lies in `[0, 2^63)`, so its signed reading is itself. -/
def lshr1 (x : Int) : Int := x % 2 ^ 64 / 2

/-- `array_get`: load of cell `idx` (via `ll_int64_array_idx`, no bounds
check). -/
def array_get (a : Mem) (idx : Int) : Int := a idx

/-- `array_set`: store of `v` into cell `idx` (no bounds check). -/
def array_set (a : Mem) (idx v : Int) : Mem := fun j => if j = idx then v else a j

/-- `left_child`: `mul i64 2, p` then `add 1`, i64 arithmetic. -/
def left_child (p : Int) : Int := wrap (2 * p + 1)

/-- `right_child`: `mul i64 2, p` then `add 2`, i64 arithmetic. -/
def right_child (p : Int) : Int := wrap (2 * p + 2)

/-- `left_until`: `sub r l`, `lshr` by one, `add l`, all i64. -/
def left_until (l r : Int) : Int := wrap (l + lshr1 (wrap (r - l)))

/-- `right_from`: `left_until l r` plus one, i64. -/
def right_from (l r : Int) : Int := wrap (left_until l r + 1)

/-- `max` from the IR: `icmp slt a b` then branch, returning `b` when `a < b`
and `a` otherwise.  Named `max64` to avoid clashing with `Max.max`. -/
def max64 (a b : Int) : Int := if a < b then b else a

/-- `build`: inserts `val` at leaf `idx` of the subtree at slot `p` covering
`[l, r]`, recomputing every slot on the way back up.  Fuel-indexed: `none`
means the recursion needed more than `fuel` nested levels. -/
def build : Nat → Mem → Int → Int → Int → Int → Int → Option Mem
  | 0, _, _, _, _, _, _ => none
  | fuel + 1, a, p, l, r, idx, val =>
    if idx < l ∨ idx > r then some a
    else if l = r then some (array_set a p val)
    else
      match build fuel a (left_child p) l (left_until l r) idx val with
      | none => none
      | some a1 =>
        match build fuel a1 (right_child p) (right_from l r) r idx val with
        | none => none
        | some a2 =>
          some (array_set a2 p
            (max64 (array_get a2 (left_child p)) (array_get a2 (right_child p))))

/-- `range_maximum`: RMQ over the subtree at slot `p` covering `[l, r]` with
query bounds `L, R`, threading the heap through.  NOTE: the IR computes
`%3 = or (L > r) (R < l)` but the branch `br i1 %1` tests only `%1 = L > r`;
the embedding reproduces exactly that branch. -/
def range_maximum : Nat → Mem → Int → Int → Int → Int → Int → Option (Int × Mem)
  | 0, _, _, _, _, _, _ => none
  | fuel + 1, a, p, l, r, L, R =>
    if L > r then some (0, a)
    else if r ≤ R ∧ l ≥ L then some (array_get a p, a)
    else
      match range_maximum fuel a (left_child p) l (left_until l r) L R with
      | none => none
      | some (vl, a1) =>
        match range_maximum fuel a1 (right_child p) (right_from l r) r L R with
        | none => none
        | some (vr, a2) => some (max64 vl vr, a2)

/-- The freshly allocated backing array: `ll_malloc` zeroes every cell. -/
def initMem : Mem := fun _ => 0

/-- The driver loop of `main`: starting from the zeroed array, issue one root
`build` call per target index `0, 1, ..., j-1` in increasing order, each with
the root triple `(slot 0, l = 0, r = n-1)` and value `f i`. -/
def buildUpTo (fuel : Nat) (f : Int → Int) (n : Nat) : Nat → Option Mem
  | 0 => some initMem
  | j + 1 =>
    match buildUpTo fuel f n j with
    | none => none
    | some a => build fuel a 0 0 ((n : Int) - 1) (j : Int) (f (j : Int))

/-! ### Specification-side definitions -/

/-- Pointwise update of a target-value map, for stating build postconditions. -/
def updateF (f : Int → Int) (idx v : Int) : Int → Int :=
  fun i => if i = idx then v else f i

/-- The target map after the first `j` driver iterations: positions `0..j-1`
hold their input values, every other position still holds the initial zero. -/
def gclip (f : Int → Int) (j : Nat) : Int → Int :=
  fun i => if 0 ≤ i ∧ i < (j : Nat) then f i else 0

/-- Mathematical maximum of `f` over the inclusive interval `[l, r]`
(equal to `f l` when the interval is degenerate). -/
def intervalMax (f : Int → Int) (l r : Int) : Int :=
  if l < r then max (f l) (intervalMax f (l + 1) r) else f l
termination_by (r - l).toNat
decreasing_by omega

/-- Depth of the recursion tree over an interval of length `k` (number of
nested levels needed by `build` on `[l, l+k]`). -/
def treeDepth (k : Nat) : Nat :=
  match k with
  | 0 => 1
  | k' + 1 => treeDepth ((k' + 1) / 2) + 1
termination_by k
decreasing_by omega

/-- The node invariant over the subtree at slot `p` covering `[l, l+k]`:
a leaf slot holds its target value `f l`, an internal slot holds the `max64`
of the values stored at its children slots `2p+1` and `2p+2`. -/
def NodesOk (k : Nat) (a : Mem) (f : Int → Int) (p l : Int) : Bool :=
  match k with
  | 0 => a p == f l
  | k' + 1 =>
    (a p == max64 (a (2 * p + 1)) (a (2 * p + 2))) &&
    NodesOk ((k' + 1) / 2) a f (2 * p + 1) l &&
    NodesOk (k' - (k' + 1) / 2) a f (2 * p + 2) (l + (((k' + 1) / 2 : Nat) : Int) + 1)
termination_by k
decreasing_by all_goals omega

/-- Membership in the slot set of the subtree rooted at slot `p` for an
interval of length `k`. -/
def inSub (k : Nat) (p q : Int) : Bool :=
  match k with
  | 0 => q == p
  | k' + 1 =>
    q == p || inSub ((k' + 1) / 2) (2 * p + 1) q ||
      inSub (k' - (k' + 1) / 2) (2 * p + 2) q
termination_by k
decreasing_by all_goals omega

/-- Membership in the recursion path from slot `p` (interval `[l, l+k]`)
down to the leaf holding `idx`. -/
def onPath (k : Nat) (p l idx q : Int) : Bool :=
  match k with
  | 0 => q == p
  | k' + 1 =>
    q == p ||
      (if idx ≤ l + (((k' + 1) / 2 : Nat) : Int)
       then onPath ((k' + 1) / 2) (2 * p + 1) l idx q
       else onPath (k' - (k' + 1) / 2) (2 * p + 2)
         (l + (((k' + 1) / 2 : Nat) : Int) + 1) idx q)
termination_by k
decreasing_by all_goals omega

/-- Maximum of the values stored at the leaf slots of the subtree at slot `p`
covering `[l, l+k]`, read from memory `a`. -/
def subtreeLeafMax (k : Nat) (a : Mem) (p l : Int) : Int :=
  match k with
  | 0 => a p
  | k' + 1 =>
    max64 (subtreeLeafMax ((k' + 1) / 2) a (2 * p + 1) l)
      (subtreeLeafMax (k' - (k' + 1) / 2) a (2 * p + 2)
        (l + (((k' + 1) / 2 : Nat) : Int) + 1))
termination_by k
decreasing_by all_goals omega

/-- Every slot on the path from `p` to the leaf of `idx` holds the maximum of
the leaf values currently stored in its subtree. -/
def pathOk (k : Nat) (a : Mem) (p l idx : Int) : Bool :=
  match k with
  | 0 => a p == subtreeLeafMax 0 a p l
  | k' + 1 =>
    (a p == subtreeLeafMax (k' + 1) a p l) &&
      (if idx ≤ l + (((k' + 1) / 2 : Nat) : Int)
       then pathOk ((k' + 1) / 2) a (2 * p + 1) l idx
       else pathOk (k' - (k' + 1) / 2) a (2 * p + 2)
         (l + (((k' + 1) / 2 : Nat) : Int) + 1) idx)
termination_by k
decreasing_by all_goals omega

/-! ### i64 arithmetic bridge lemmas -/

theorem wrap_eq {x : Int} (h1 : -2 ^ 63 ≤ x) (h2 : x < 2 ^ 63) : wrap x = x := by
  unfold wrap; omega

theorem left_child_eq {p : Int} (h1 : 0 ≤ p) (h2 : 2 * p + 2 < 2 ^ 63) :
    left_child p = 2 * p + 1 := by
  unfold left_child wrap; omega

theorem right_child_eq {p : Int} (h1 : 0 ≤ p) (h2 : 2 * p + 2 < 2 ^ 63) :
    right_child p = 2 * p + 2 := by
  unfold right_child wrap; omega

theorem left_until_eq {l r : Int} (h1 : -2 ^ 63 ≤ l) (h2 : l ≤ r) (h3 : r < 2 ^ 63) :
    left_until l r = l + (r - l) / 2 := by
  unfold left_until lshr1 wrap; omega

theorem right_from_eq {l r : Int} (h1 : -2 ^ 63 ≤ l) (h2 : l < r) (h3 : r < 2 ^ 63) :
    right_from l r = l + (r - l) / 2 + 1 := by
  unfold right_from left_until lshr1 wrap; omega

/-! ### Recursion-depth lemmas -/

theorem treeDepth_pos (k : Nat) : 1 ≤ treeDepth k := by
  match k with
  | 0 => simp [treeDepth]
  | k' + 1 => rw [treeDepth]; omega

theorem treeDepth_succ (k' : Nat) : treeDepth (k' + 1) = treeDepth ((k' + 1) / 2) + 1 := by
  rw [treeDepth]

theorem treeDepth_mono : ∀ {j k : Nat}, j ≤ k → treeDepth j ≤ treeDepth k := by
  intro j k
  induction k using Nat.strongRecOn generalizing j with
  | ind k ih =>
    intro hjk
    match k, j with
    | 0, 0 => exact le_rfl
    | k' + 1, 0 =>
      have h1 := treeDepth_pos (k' + 1)
      have h0 : treeDepth 0 = 1 := by rw [treeDepth]
      omega
    | k' + 1, j' + 1 =>
      rw [treeDepth, treeDepth]
      have h2 : (j' + 1) / 2 ≤ (k' + 1) / 2 := by omega
      have := ih ((k' + 1) / 2) (by omega) h2
      omega

theorem treeDepth_le_of_lt_pow : ∀ (j k : Nat), k < 2 ^ j → treeDepth k ≤ j + 1 := by
  intro j
  induction j with
  | zero => intro k hk; interval_cases k; simp [treeDepth]
  | succ j ih =>
    intro k hk
    match k with
    | 0 => simp [treeDepth]
    | k' + 1 =>
      rw [treeDepth]
      have : (k' + 1) / 2 < 2 ^ j := by
        have := Nat.pow_succ 2 j
        omega
      have := ih _ this
      omega

theorem treeDepth_two_ge (k' : Nat) : 2 ≤ treeDepth (k' + 1) := by
  rw [treeDepth_succ]
  have := treeDepth_pos ((k' + 1) / 2)
  omega

theorem nodesOk_zero_iff {a : Mem} {f : Int → Int} {p l : Int} :
    NodesOk 0 a f p l = true ↔ a p = f l := by
  rw [NodesOk]; simp

theorem nodesOk_succ_iff {k' : Nat} {a : Mem} {f : Int → Int} {p l : Int} :
    NodesOk (k' + 1) a f p l = true ↔
      a p = max64 (a (2 * p + 1)) (a (2 * p + 2)) ∧
      NodesOk ((k' + 1) / 2) a f (2 * p + 1) l = true ∧
      NodesOk (k' - (k' + 1) / 2) a f (2 * p + 2)
        (l + (((k' + 1) / 2 : Nat) : Int) + 1) = true := by
  rw [NodesOk]; simp [Bool.and_assoc]

theorem inSub_zero_iff {p q : Int} : inSub 0 p q = true ↔ q = p := by
  rw [inSub]; simp

theorem inSub_succ_iff {k' : Nat} {p q : Int} :
    inSub (k' + 1) p q = true ↔
      q = p ∨ inSub ((k' + 1) / 2) (2 * p + 1) q = true ∨
        inSub (k' - (k' + 1) / 2) (2 * p + 2) q = true := by
  rw [inSub]; simp [Bool.or_assoc]

theorem inSub_self (k : Nat) (p : Int) : inSub k p p = true := by
  match k with
  | 0 => rw [inSub]; simp
  | k' + 1 => rw [inSub]; simp

theorem inSub_ge : ∀ (k : Nat) (p q : Int), 0 ≤ p → inSub k p q = true → p ≤ q := by
  intro k
  induction k using Nat.strongRecOn with
  | ind k ih =>
    intro p q hp h
    match k with
    | 0 => rw [inSub_zero_iff] at h; omega
    | k' + 1 =>
      rw [inSub_succ_iff] at h
      rcases h with h | h | h
      · omega
      · have := ih ((k' + 1) / 2) (by omega) (2 * p + 1) q (by omega) h
        omega
      · have := ih (k' - (k' + 1) / 2) (by omega) (2 * p + 2) q (by omega) h
        omega

theorem inSub_char : ∀ (k : Nat) (p q : Int), 0 ≤ p → inSub k p q = true →
    0 ≤ q ∧ ∃ j : Nat, (q.toNat + 1) / 2 ^ j = p.toNat + 1 := by
  intro k
  induction k using Nat.strongRecOn with
  | ind k ih =>
    intro p q hp h
    match k with
    | 0 =>
      rw [inSub_zero_iff] at h
      subst h
      exact ⟨hp, 0, by simp⟩
    | k' + 1 =>
      rw [inSub_succ_iff] at h
      rcases h with h | h | h
      · subst h; exact ⟨hp, 0, by simp⟩
      · obtain ⟨hq, j, hj⟩ := ih ((k' + 1) / 2) (by omega) (2 * p + 1) q (by omega) h
        refine ⟨hq, j + 1, ?_⟩
        have h2 : (2 * p + 1).toNat = 2 * p.toNat + 1 := by omega
        rw [h2] at hj
        have h3 : (q.toNat + 1) / 2 ^ (j + 1) = (q.toNat + 1) / 2 ^ j / 2 := by
          rw [Nat.div_div_eq_div_mul, pow_succ]
        rw [h3, hj]
        omega
      · obtain ⟨hq, j, hj⟩ := ih (k' - (k' + 1) / 2) (by omega) (2 * p + 2) q (by omega) h
        refine ⟨hq, j + 1, ?_⟩
        have h2 : (2 * p + 2).toNat = 2 * p.toNat + 2 := by omega
        rw [h2] at hj
        have h3 : (q.toNat + 1) / 2 ^ (j + 1) = (q.toNat + 1) / 2 ^ j / 2 := by
          rw [Nat.div_div_eq_div_mul, pow_succ]
        rw [h3, hj]
        omega

theorem sibling_disjoint {k1 k2 : Nat} {p q : Int} (hp : 0 ≤ p)
    (h1 : inSub k1 (2 * p + 1) q = true) (h2 : inSub k2 (2 * p + 2) q = true) : False := by
  obtain ⟨hq, i, hi⟩ := inSub_char k1 (2 * p + 1) q (by omega) h1
  obtain ⟨-, j, hj⟩ := inSub_char k2 (2 * p + 2) q (by omega) h2
  have e1 : (2 * p + 1).toNat = 2 * p.toNat + 1 := by omega
  have e2 : (2 * p + 2).toNat = 2 * p.toNat + 2 := by omega
  rw [e1] at hi
  rw [e2] at hj
  set P := p.toNat with hP
  set Q := q.toNat + 1 with hQ
  rcases Nat.lt_trichotomy i j with hij | hij | hij
  · have hexp : i + (j - i) = j := by omega
    have hsplit : Q / 2 ^ j = Q / 2 ^ i / 2 ^ (j - i) := by
      rw [Nat.div_div_eq_div_mul, ← pow_add, hexp]
    have h2le : 2 ≤ 2 ^ (j - i) := by
      have : 2 ^ 1 ≤ 2 ^ (j - i) := Nat.pow_le_pow_right (by omega) (by omega)
      simpa using this
    have hle : 2 * P + 3 ≤ (2 * P + 2) / 2 := by
      rw [← hj, hsplit, hi]
      exact Nat.div_le_div_left h2le (by omega)
    omega
  · subst hij
    rw [hi] at hj
    omega
  · have hexp : j + (i - j) = i := by omega
    have hsplit : Q / 2 ^ i = Q / 2 ^ j / 2 ^ (i - j) := by
      rw [Nat.div_div_eq_div_mul, ← pow_add, hexp]
    have h2le : 2 ≤ 2 ^ (i - j) := by
      have : 2 ^ 1 ≤ 2 ^ (i - j) := Nat.pow_le_pow_right (by omega) (by omega)
      simpa using this
    have hle : 2 * P + 2 ≤ (2 * P + 3) / 2 := by
      rw [← hi, hsplit, hj]
      exact Nat.div_le_div_left h2le (by omega)
    omega

theorem onPath_zero_iff {p l idx q : Int} : onPath 0 p l idx q = true ↔ q = p := by
  rw [onPath]; simp

theorem onPath_succ_iff {k' : Nat} {p l idx q : Int} :
    onPath (k' + 1) p l idx q = true ↔
      q = p ∨
      (if idx ≤ l + (((k' + 1) / 2 : Nat) : Int)
       then onPath ((k' + 1) / 2) (2 * p + 1) l idx q
       else onPath (k' - (k' + 1) / 2) (2 * p + 2)
         (l + (((k' + 1) / 2 : Nat) : Int) + 1) idx q) = true := by
  rw [onPath]; simp

theorem onPath_imp_inSub : ∀ (k : Nat) (p l idx q : Int),
    onPath k p l idx q = true → inSub k p q = true := by
  intro k
  induction k using Nat.strongRecOn with
  | ind k ih =>
    intro p l idx q h
    match k with
    | 0 => rw [onPath_zero_iff] at h; rw [inSub_zero_iff]; exact h
    | k' + 1 =>
      rw [onPath_succ_iff] at h
      rw [inSub_succ_iff]
      rcases h with h | h
      · exact Or.inl h
      · split at h
        · exact Or.inr (Or.inl (ih ((k' + 1) / 2) (by omega) _ _ _ _ h))
        · exact Or.inr (Or.inr (ih (k' - (k' + 1) / 2) (by omega) _ _ _ _ h))

theorem nodesOk_ext : ∀ (k : Nat) (p l : Int) (a b : Mem) (f : Int → Int),
    (∀ q, inSub k p q = true → a q = b q) →
    NodesOk k a f p l = true → NodesOk k b f p l = true := by
  intro k
  induction k using Nat.strongRecOn with
  | ind k ih =>
    intro p l a b f hab h
    match k with
    | 0 =>
      rw [nodesOk_zero_iff] at h ⊢
      rw [← hab p (inSub_self 0 p)]
      exact h
    | k' + 1 =>
      rw [nodesOk_succ_iff] at h ⊢
      obtain ⟨h0, hL, hR⟩ := h
      have hmemL : inSub (k' + 1) p (2 * p + 1) = true := by
        rw [inSub_succ_iff]
        exact Or.inr (Or.inl (inSub_self _ _))
      have hmemR : inSub (k' + 1) p (2 * p + 2) = true := by
        rw [inSub_succ_iff]
        exact Or.inr (Or.inr (inSub_self _ _))
      refine ⟨?_, ?_, ?_⟩
      · rw [← hab p (inSub_self _ p), ← hab _ hmemL, ← hab _ hmemR]
        exact h0
      · refine ih ((k' + 1) / 2) (by omega) _ _ _ _ _ ?_ hL
        intro q hq
        refine hab q ?_
        rw [inSub_succ_iff]
        exact Or.inr (Or.inl hq)
      · refine ih (k' - (k' + 1) / 2) (by omega) _ _ _ _ _ ?_ hR
        intro q hq
        refine hab q ?_
        rw [inSub_succ_iff]
        exact Or.inr (Or.inr hq)

theorem nodesOk_congr : ∀ (k : Nat) (p l : Int) (a : Mem) (f g : Int → Int),
    (∀ i : Int, l ≤ i → i ≤ l + (k : Int) → f i = g i) →
    NodesOk k a f p l = true → NodesOk k a g p l = true := by
  intro k
  induction k using Nat.strongRecOn with
  | ind k ih =>
    intro p l a f g hfg h
    match k with
    | 0 =>
      rw [nodesOk_zero_iff] at h ⊢
      rw [← hfg l (by omega) (by omega)]
      exact h
    | k' + 1 =>
      rw [nodesOk_succ_iff] at h ⊢
      obtain ⟨h0, hL, hR⟩ := h
      refine ⟨h0, ?_, ?_⟩
      · refine ih ((k' + 1) / 2) (by omega) _ _ _ _ _ ?_ hL
        intro i hi1 hi2
        refine hfg i hi1 (by omega)
      · refine ih (k' - (k' + 1) / 2) (by omega) _ _ _ _ _ ?_ hR
        intro i hi1 hi2
        refine hfg i (by omega) (by omega)

theorem max64_eq_max (a b : Int) : max64 a b = max a b := by
  unfold max64
  split <;> omega

theorem intervalMax_eq (f : Int → Int) (l r : Int) :
    intervalMax f l r = if l < r then max (f l) (intervalMax f (l + 1) r) else f l := by
  rw [intervalMax]

theorem intervalMax_split : ∀ (d : Nat) (f : Int → Int) (l m r : Int),
    (m - l).toNat = d → l ≤ m → m < r →
    intervalMax f l r = max (intervalMax f l m) (intervalMax f (m + 1) r) := by
  intro d
  induction d using Nat.strongRecOn with
  | ind d ih =>
    intro f l m r hd hlm hmr
    by_cases hc : l = m
    · subst hc
      rw [intervalMax_eq f l r, if_pos (by omega), intervalMax_eq f l l, if_neg (by omega)]
    · have hlt : l < m := by omega
      rw [intervalMax_eq f l r, if_pos (by omega)]
      rw [ih (m - (l + 1)).toNat (by omega) f (l + 1) m r (by omega) (by omega) hmr]
      rw [intervalMax_eq f l m, if_pos hlt]
      exact (max_assoc _ _ _).symm

theorem le_intervalMax : ∀ (d : Nat) (f : Int → Int) (l r i : Int),
    (r - l).toNat = d → l ≤ i → i ≤ r → f i ≤ intervalMax f l r := by
  intro d
  induction d using Nat.strongRecOn with
  | ind d ih =>
    intro f l r i hd hli hir
    by_cases hc : l < r
    · rw [intervalMax_eq, if_pos hc]
      by_cases hi : i = l
      · subst hi; exact le_max_left _ _
      · have := ih (r - (l + 1)).toNat (by omega) f (l + 1) r i (by omega) (by omega) hir
        exact le_trans this (le_max_right _ _)
    · have : i = l := by omega
      subst this
      rw [intervalMax_eq, if_neg hc]

theorem intervalMax_mem : ∀ (d : Nat) (f : Int → Int) (l r : Int),
    (r - l).toNat = d → l ≤ r → ∃ i, l ≤ i ∧ i ≤ r ∧ intervalMax f l r = f i := by
  intro d
  induction d using Nat.strongRecOn with
  | ind d ih =>
    intro f l r hd hlr
    by_cases hc : l < r
    · obtain ⟨i, hi1, hi2, hi3⟩ := ih (r - (l + 1)).toNat (by omega) f (l + 1) r (by omega) (by omega)
      rw [intervalMax_eq, if_pos hc, hi3]
      rcases max_cases (f l) (f i) with ⟨he, -⟩ | ⟨he, -⟩
      · exact ⟨l, by omega, by omega, he⟩
      · exact ⟨i, by omega, by omega, he⟩
    · exact ⟨l, le_rfl, hlr, by rw [intervalMax_eq, if_neg hc]⟩

theorem nodesOk_rootval : ∀ (k : Nat) (a : Mem) (f : Int → Int) (p l : Int),
    NodesOk k a f p l = true → a p = intervalMax f l (l + (k : Int)) := by
  intro k
  induction k using Nat.strongRecOn with
  | ind k ih =>
    intro a f p l h
    match k with
    | 0 =>
      rw [nodesOk_zero_iff] at h
      rw [intervalMax_eq, if_neg (by omega)]
      simpa using h
    | k' + 1 =>
      rw [nodesOk_succ_iff] at h
      obtain ⟨h0, hL, hR⟩ := h
      have e1 := ih ((k' + 1) / 2) (by omega) a f (2 * p + 1) l hL
      have e2 := ih (k' - (k' + 1) / 2) (by omega) a f (2 * p + 2)
        (l + (((k' + 1) / 2 : Nat) : Int) + 1) hR
      rw [h0, max64_eq_max, e1, e2]
      have hsplit := intervalMax_split (((k' + 1) / 2 : Nat)) f l
        (l + (((k' + 1) / 2 : Nat) : Int)) (l + ((k' + 1 : Nat) : Int))
        (by omega) (by omega) (by omega)
      rw [hsplit]
      congr 2
      omega

theorem nodesOk_slm : ∀ (k : Nat) (a : Mem) (f : Int → Int) (p l : Int),
    NodesOk k a f p l = true → a p = subtreeLeafMax k a p l := by
  intro k
  induction k using Nat.strongRecOn with
  | ind k ih =>
    intro a f p l h
    match k with
    | 0 => rw [subtreeLeafMax]
    | k' + 1 =>
      rw [nodesOk_succ_iff] at h
      obtain ⟨h0, hL, hR⟩ := h
      rw [subtreeLeafMax, h0]
      rw [ih ((k' + 1) / 2) (by omega) a f _ _ hL,
          ih (k' - (k' + 1) / 2) (by omega) a f _ _ hR]

theorem nodesOk_pathOk : ∀ (k : Nat) (a : Mem) (f : Int → Int) (p l idx : Int),
    NodesOk k a f p l = true → pathOk k a p l idx = true := by
  intro k
  induction k using Nat.strongRecOn with
  | ind k ih =>
    intro a f p l idx h
    match k with
    | 0 => rw [pathOk, subtreeLeafMax]; simp
    | k' + 1 =>
      have hslm := nodesOk_slm (k' + 1) a f p l h
      rw [nodesOk_succ_iff] at h
      obtain ⟨h0, hL, hR⟩ := h
      rw [pathOk]
      simp only [Bool.and_eq_true, beq_iff_eq]
      refine ⟨hslm, ?_⟩
      split
      · exact ih ((k' + 1) / 2) (by omega) a f _ _ idx hL
      · exact ih (k' - (k' + 1) / 2) (by omega) a f _ _ idx hR

theorem nodesOk_initMem : ∀ (k : Nat) (p l : Int),
    NodesOk k initMem (fun _ => 0) p l = true := by
  intro k
  induction k using Nat.strongRecOn with
  | ind k ih =>
    intro p l
    match k with
    | 0 => rw [nodesOk_zero_iff]; rfl
    | k' + 1 =>
      rw [nodesOk_succ_iff]
      exact ⟨by rfl, ih ((k' + 1) / 2) (by omega) _ _, ih (k' - (k' + 1) / 2) (by omega) _ _⟩

theorem treeDepth_eq_half (k : Nat) (h : 1 ≤ k) : treeDepth k = treeDepth (k / 2) + 1 := by
  match k, h with
  | k' + 1, _ => rw [treeDepth_succ]

theorem build_total : ∀ (k fuel : Nat) (l r : Int),
    (r - l).toNat = k → -2 ^ 63 ≤ l → l ≤ r → r < 2 ^ 63 → treeDepth k ≤ fuel →
    ∀ (a : Mem) (p idx val : Int), (build fuel a p l r idx val).isSome = true := by
  intro k
  induction k using Nat.strongRecOn with
  | ind k ih =>
    intro fuel l r hk hlo hlr hhi hfuel a p idx val
    have hfu : 1 ≤ fuel := le_trans (treeDepth_pos k) hfuel
    obtain ⟨fu, rfl⟩ : ∃ fu, fuel = fu + 1 := ⟨fuel - 1, by omega⟩
    rw [build]
    by_cases hg : idx < l ∨ idx > r
    · rw [if_pos hg]; rfl
    · rw [if_neg hg]
      by_cases heq : l = r
      · rw [if_pos heq]; rfl
      · rw [if_neg heq]
        have hlt : l < r := by omega
        have hm := left_until_eq hlo hlr hhi
        have hm2 := right_from_eq hlo hlt hhi
        set m := l + (r - l) / 2 with hmdef
        have hmb : l ≤ m ∧ m < r := by constructor <;> omega
        have hk1 : 1 ≤ k := by omega
        have hdh : treeDepth (k / 2) + 1 ≤ fu + 1 := by
          rw [← treeDepth_eq_half k hk1]; exact hfuel
        have hL := ih ((m - l).toNat) (by omega) fu l m (by rfl) hlo (by omega) (by omega)
          (by have : (m - l).toNat = k / 2 := by omega
              rw [this]; omega) a (left_child p) idx val
        rw [hm]
        obtain ⟨a1, ha1⟩ := Option.isSome_iff_exists.mp hL
        rw [ha1]
        dsimp only
        have hR := ih ((r - (m + 1)).toNat) (by omega) fu (m + 1) r (by rfl) (by omega)
          (by omega) hhi
          (by have h1 : (r - (m + 1)).toNat ≤ k / 2 := by omega
              have := treeDepth_mono h1
              omega) a1 (right_child p) idx val
        rw [hm2]
        obtain ⟨a2, ha2⟩ := Option.isSome_iff_exists.mp hR
        rw [ha2]
        rfl

theorem build_master : ∀ (k fuel : Nat) (p l r idx val : Int) (a : Mem) (g : Int → Int),
    (r - l).toNat = k → l ≤ r → -2 ^ 63 ≤ l → r < 2 ^ 63 →
    0 ≤ p → (p + 2) * 2 ^ treeDepth k ≤ 2 ^ 63 →
    treeDepth k ≤ fuel →
    ∃ a', build fuel a p l r idx val = some a' ∧
      (∀ q, a' q ≠ a q → l ≤ idx ∧ idx ≤ r ∧ onPath k p l idx q = true) ∧
      (NodesOk k a g p l = true → NodesOk k a' (updateF g idx val) p l = true) := by
  intro k
  induction k using Nat.strongRecOn with
  | ind k ih =>
    intro fuel p l r idx val a g hk hlr hlo hhi hp hpb hfuel
    obtain ⟨fu, rfl⟩ : ∃ fu, fuel = fu + 1 := ⟨fuel - 1, by
      have := treeDepth_pos k; omega⟩
    by_cases hg : idx < l ∨ idx > r
    · refine ⟨a, ?_, ?_, ?_⟩
      · rw [build, if_pos hg]
      · intro q hq; exact absurd rfl hq
      · intro hok
        refine nodesOk_congr k p l a g (updateF g idx val) ?_ hok
        intro i h1 h2
        have hi : i ≠ idx := by rcases hg with hg | hg <;> omega
        simp [updateF, hi]
    · by_cases heq : l = r
      · subst heq
        have hk0 : k = 0 := by omega
        subst hk0
        have hil : idx = l := by omega
        refine ⟨array_set a p val, ?_, ?_, ?_⟩
        · rw [build, if_neg hg, if_pos rfl]
        · intro q hq
          have hqp : q = p := by
            by_contra hc
            exact hq (by simp [array_set, hc])
          refine ⟨by omega, by omega, ?_⟩
          rw [onPath_zero_iff]
          exact hqp
        · intro _
          rw [nodesOk_zero_iff]
          simp [array_set, updateF, hil]
      · have hlt : l < r := by omega
        obtain ⟨k', rfl⟩ : ∃ k', k = k' + 1 := ⟨k - 1, by omega⟩
        set kl := (k' + 1) / 2 with hkl
        set kr := k' - kl with hkr
        set m := l + ((kl : Nat) : Int) with hmdef
        have hrk : r = l + ((k' : Int) + 1) := by omega
        have hm_eq : left_until l r = m := by
          rw [left_until_eq hlo hlr hhi]
          omega
        have hrf : right_from l r = m + 1 := by
          rw [right_from_eq hlo hlt hhi]
          omega
        have hd : treeDepth (k' + 1) = treeDepth kl + 1 := treeDepth_succ k'
        have hdpos := treeDepth_pos kl
        have hpow_pos : (0 : Int) < 2 ^ treeDepth kl := by positivity
        have hpow4 : (4 : Int) ≤ 2 ^ treeDepth (k' + 1) := by
          calc (4 : Int) = 2 ^ 2 := by norm_num
          _ ≤ 2 ^ treeDepth (k' + 1) := by
            apply pow_le_pow_right₀ (by norm_num)
            have := treeDepth_two_ge k'
            omega
        have h2p2 : 2 * p + 2 < 2 ^ 63 := by
          have h1 : (p + 2) * 4 ≤ (p + 2) * 2 ^ treeDepth (k' + 1) :=
            mul_le_mul_of_nonneg_left hpow4 (by omega)
          have h63 : (2 : Int) ^ 63 = 9223372036854775808 := by norm_num
          nlinarith
        have hprod : (2 * p + 4) * 2 ^ treeDepth kl = (p + 2) * 2 ^ treeDepth (k' + 1) := by
          rw [hd, pow_succ]
          ring
        have hL_bound : (2 * p + 1 + 2) * 2 ^ treeDepth kl ≤ 2 ^ 63 := by
          have h1 : (2 * p + 1 + 2) * 2 ^ treeDepth kl ≤ (2 * p + 4) * 2 ^ treeDepth kl :=
            mul_le_mul_of_nonneg_right (by omega) (le_of_lt hpow_pos)
          linarith
        have hkrkl : kr ≤ kl := by omega
        have hR_bound : (2 * p + 2 + 2) * 2 ^ treeDepth kr ≤ 2 ^ 63 := by
          have h0 : (2 : Int) ^ treeDepth kr ≤ 2 ^ treeDepth kl :=
            pow_le_pow_right₀ (by norm_num) (treeDepth_mono hkrkl)
          have h1 : (2 * p + 2 + 2) * 2 ^ treeDepth kr ≤ (2 * p + 4) * 2 ^ treeDepth kl :=
            mul_le_mul_of_nonneg_left h0 (by omega) |>.trans_eq (by ring_nf)
          linarith
        have hfuL : treeDepth kl ≤ fu := by omega
        have hfuR : treeDepth kr ≤ fu := le_trans (treeDepth_mono hkrkl) hfuL
        obtain ⟨a1, e1, fr1, okimp1⟩ := ih kl (by omega) fu (2 * p + 1) l m idx val a g
          (by omega) (by omega) hlo (by omega) (by omega) hL_bound hfuL
        obtain ⟨a2, e2, fr2, okimp2⟩ := ih kr (by omega) fu (2 * p + 2) (m + 1) r idx val a1 g
          (by omega) (by omega) (by omega) hhi (by omega) hR_bound hfuR
        have hlc : left_child p = 2 * p + 1 := left_child_eq hp h2p2
        have hrc : right_child p = 2 * p + 2 := right_child_eq hp h2p2
        refine ⟨array_set a2 p (max64 (array_get a2 (2 * p + 1)) (array_get a2 (2 * p + 2))),
          ?_, ?_, ?_⟩
        · rw [build, if_neg hg, if_neg heq, hm_eq, hrf, hlc, hrc, e1]
          dsimp only
          rw [e2]
        · intro q hq
          have hidx1 : l ≤ idx := by omega
          have hidx2 : idx ≤ r := by omega
          refine ⟨hidx1, hidx2, ?_⟩
          rw [onPath_succ_iff]
          by_cases hqp : q = p
          · exact Or.inl hqp
          · right
            have ha'q : array_set a2 p
                (max64 (array_get a2 (2 * p + 1)) (array_get a2 (2 * p + 2))) q = a2 q := by
              simp [array_set, hqp]
            rw [ha'q] at hq
            by_cases hside : idx ≤ l + ((kl : Nat) : Int)
            · rw [if_pos hside]
              have ha2q : a2 q = a1 q := by
                by_contra hne
                obtain ⟨hh1, -, -⟩ := fr2 q hne
                omega
              rw [ha2q] at hq
              obtain ⟨-, -, hop⟩ := fr1 q hq
              exact hop
            · rw [if_neg hside]
              have ha1q : a1 q = a q := by
                by_contra hne
                obtain ⟨-, hh2, -⟩ := fr1 q hne
                omega
              have hne2 : a2 q ≠ a1 q := by rw [ha1q]; exact hq
              obtain ⟨-, -, hop⟩ := fr2 q hne2
              exact hop
        · intro hok
          rw [nodesOk_succ_iff] at hok
          obtain ⟨-, hL, hR⟩ := hok
          have ok1 := okimp1 hL
          have hR1 : NodesOk kr a1 g (2 * p + 2) (m + 1) = true := by
            refine nodesOk_ext kr (2 * p + 2) (m + 1) a a1 g ?_ hR
            intro q hq
            by_contra hne
            obtain ⟨-, -, hop⟩ := fr1 q (fun h => hne h.symm)
            exact sibling_disjoint hp (onPath_imp_inSub kl (2 * p + 1) l idx q hop) hq
          have ok2 := okimp2 hR1
          rw [nodesOk_succ_iff]
          have hne1 : ¬(2 * p + 1 = p) := by omega
          have hne2 : ¬(2 * p + 2 = p) := by omega
          refine ⟨?_, ?_, ?_⟩
          · simp [array_set, array_get, hne1, hne2]
          · refine nodesOk_ext kl (2 * p + 1) l a1 _ (updateF g idx val) ?_ ok1
            intro q hq
            have ha2q : a2 q = a1 q := by
              by_contra hne
              obtain ⟨-, -, hop⟩ := fr2 q hne
              exact absurd hq (by
                intro hcon
                exact sibling_disjoint hp hcon (onPath_imp_inSub kr (2 * p + 2) (m + 1) idx q hop))
            have hqnp : ¬(q = p) := by
              have := inSub_ge kl (2 * p + 1) q (by omega) hq
              omega
            simp [array_set, hqnp, ha2q]
          · refine nodesOk_ext kr (2 * p + 2) (m + 1) a2 _ (updateF g idx val) ?_ ok2
            intro q hq
            have hqnp : ¬(q = p) := by
              have := inSub_ge kr (2 * p + 2) q (by omega) hq
              omega
            simp [array_set, hqnp]

theorem gclip_zero (f : Int → Int) : gclip f 0 = fun _ => (0 : Int) := by
  funext i
  simp only [gclip]
  rw [if_neg (by omega)]

theorem gclip_step (f : Int → Int) (j : Nat) :
    updateF (gclip f j) (j : Int) (f (j : Int)) = gclip f (j + 1) := by
  funext i
  by_cases hij : i = (j : Int)
  · subst hij
    have hc : 0 ≤ (j : Int) ∧ (j : Int) < ((j + 1 : Nat) : Int) := by push_cast; omega
    simp only [updateF, gclip]
    rw [if_pos trivial, if_pos hc]
  · simp only [updateF, gclip, if_neg hij]
    have hiff : (0 ≤ i ∧ i < ((j : Nat) : Int)) ↔ (0 ≤ i ∧ i < (((j + 1 : Nat)) : Int)) := by
      push_cast
      omega
    rw [if_congr hiff rfl rfl]

theorem buildUpTo_inv : ∀ (n : Nat) (f : Int → Int) (fuel : Nat), 1 ≤ n → n ≤ 2 ^ 61 →
    treeDepth (n - 1) ≤ fuel → ∀ j : Nat, j ≤ n →
    ∃ a, buildUpTo fuel f n j = some a ∧ NodesOk (n - 1) a (gclip f j) 0 0 = true := by
  intro n f fuel hn1 hn2 hfuel j
  induction j with
  | zero =>
    intro _
    refine ⟨initMem, rfl, ?_⟩
    rw [gclip_zero]
    exact nodesOk_initMem (n - 1) 0 0
  | succ j ihj =>
    intro hjn
    obtain ⟨a, ha, hok⟩ := ihj (by omega)
    have hdepth : treeDepth (n - 1) ≤ 62 := by
      refine treeDepth_le_of_lt_pow 61 (n - 1) (by omega)
    have hpow : (2 : Int) ^ treeDepth (n - 1) ≤ 2 ^ 62 :=
      pow_le_pow_right₀ (by norm_num) hdepth
    obtain ⟨a', e, fr, okimp⟩ := build_master (n - 1) fuel 0 0 ((n : Int) - 1) (j : Int)
      (f (j : Int)) a (gclip f j)
      (by omega) (by omega) (by omega) (by push_cast; omega)
      le_rfl (by norm_num at hpow ⊢; omega) hfuel
    have ok' := okimp hok
    refine ⟨a', ?_, ?_⟩
    · rw [buildUpTo, ha]
      exact e
    · rw [← gclip_step]
      exact ok'

/-- Full build: after the driver loop writes all of `0..n-1` in order, the tree
satisfies the node invariant with respect to the input values themselves. -/
theorem fullBuild_nodesOk (n : Nat) (f : Int → Int) (fuel : Nat) (hn1 : 1 ≤ n)
    (hn2 : n ≤ 2 ^ 61) (hfuel : treeDepth (n - 1) ≤ fuel) :
    ∃ a, buildUpTo fuel f n n = some a ∧ NodesOk (n - 1) a f 0 0 = true := by
  obtain ⟨a, ha, hok⟩ := buildUpTo_inv n f fuel hn1 hn2 hfuel n le_rfl
  refine ⟨a, ha, ?_⟩
  refine nodesOk_congr (n - 1) 0 0 a (gclip f n) f ?_ hok
  intro i h1 h2
  simp only [gclip]
  have hc : 0 ≤ i ∧ i < ((n : Nat) : Int) := by omega
  rw [if_pos hc]

/-- On a leaf interval `[1,1]` with query `[0,0]` (`R < l`: no overlap, but
`L ≤ r`), the query recurses into an identical leaf interval forever: no fuel
suffices.  The untested `R < l` disjunct of the no-overlap check is the cause. -/
theorem rangeMax_leaf_stuck : ∀ (fuel : Nat) (a : Mem) (p : Int),
    range_maximum fuel a p 1 1 0 0 = none := by
  intro fuel
  induction fuel with
  | zero => intro a p; rfl
  | succ fu ih =>
    intro a p
    rw [range_maximum]
    rw [if_neg (show ¬(0 : Int) > 1 by omega)]
    rw [if_neg (show ¬((1 : Int) ≤ 0 ∧ (1 : Int) ≥ 0) by omega)]
    have h1 : left_until 1 1 = 1 := by decide
    rw [h1, ih a (left_child p)]

/-- The valid root query `[0,0]` on a two-element tree (`l = 0`, `r = 1`)
never returns: the right child call hits interval `[1,1]` with `R < l`. -/
theorem rangeMax_root01_stuck : ∀ (fuel : Nat) (a : Mem),
    range_maximum fuel a 0 0 1 0 0 = none := by
  intro fuel a
  match fuel with
  | 0 => rfl
  | fu + 1 =>
    rw [range_maximum]
    rw [if_neg (show ¬(0 : Int) > 1 by omega)]
    rw [if_neg (show ¬((1 : Int) ≤ 0 ∧ (0 : Int) ≥ 0) by omega)]
    have h1 : left_until 0 1 = 0 := by decide
    have h2 : right_from 0 1 = 1 := by decide
    have h3 : left_child 0 = 1 := by decide
    have h4 : right_child 0 = 2 := by decide
    rw [h1, h2, h3, h4]
    match fu with
    | 0 => rfl
    | fu' + 1 =>
      have hL : range_maximum (fu' + 1) a 1 0 0 0 0 = some (array_get a 1, a) := by
        rw [range_maximum]
        rw [if_neg (show ¬(0 : Int) > 0 by omega)]
        rw [if_pos (show (0 : Int) ≤ 0 ∧ (0 : Int) ≥ 0 by omega)]
      rw [hL]
      dsimp only
      rw [rangeMax_leaf_stuck (fu' + 1) a 2]

/-- `range_maximum` never writes: whatever heap a successful call returns is
the heap it was given. -/
theorem rangeMax_pure : ∀ (fuel : Nat) (a : Mem) (p l r L R v : Int) (a' : Mem),
    range_maximum fuel a p l r L R = some (v, a') → a' = a := by
  intro fuel
  induction fuel with
  | zero =>
    intro a p l r L R v a' h
    exact absurd h (by rw [range_maximum]; exact Option.noConfusion)
  | succ fu ih =>
    intro a p l r L R v a' h
    rw [range_maximum] at h
    by_cases h1 : L > r
    · rw [if_pos h1] at h
      obtain ⟨-, ha⟩ := Prod.mk.injEq .. ▸ Option.some.inj h
      exact ha.symm
    · rw [if_neg h1] at h
      by_cases h2 : r ≤ R ∧ l ≥ L
      · rw [if_pos h2] at h
        obtain ⟨-, ha⟩ := Prod.mk.injEq .. ▸ Option.some.inj h
        exact ha.symm
      · rw [if_neg h2] at h
        cases hL : range_maximum fu a (left_child p) l (left_until l r) L R with
        | none => rw [hL] at h; exact absurd h Option.noConfusion
        | some pl =>
          obtain ⟨vl, a1⟩ := pl
          rw [hL] at h
          dsimp only at h
          cases hR : range_maximum fu a1 (right_child p) (right_from l r) r L R with
          | none => rw [hR] at h; exact absurd h Option.noConfusion
          | some pr =>
            obtain ⟨vr, a2⟩ := pr
            rw [hR] at h
            dsimp only at h
            obtain ⟨-, ha⟩ := Prod.mk.injEq .. ▸ Option.some.inj h
            exact ha ▸ (ih a1 _ _ _ _ _ _ _ hR).trans (ih a _ _ _ _ _ _ _ hL)

/-! ### Concrete instances used in the claim theorems -/

/-- Input values `[1, 2]` for the two-element tree of the C1 failing query. -/
def c1f : Int → Int := fun i => if i = 0 then 1 else 2

/-- The fully built two-element tree over `c1f` (`n = 2`; fuel 2 covers the
depth-2 recursion). -/
def c1mem : Mem := (buildUpTo 2 c1f 2 2).getD initMem

/-- Pre-state for the C5 counterexample: slot 1 (the internal node of interval
`[0,1]`) holds a stale `100`; every other slot holds `0`. -/
def c5mem : Mem := fun j => if j = 1 then 100 else 0

/-- State after `build` writes value `5` at target index `3` of the 4-leaf
tree rooted at `(slot 0, l = 0, r = 3)` over `c5mem`. -/
def c5post : Mem := (build 3 c5mem 0 0 3 3 5).getD initMem

/-- Identity input values, used by several witnesses. -/
def wfId : Int → Int := fun i => i

/-- Claim C1 (refuted by the code): after a full in-order build of the
two-element array `[1, 2]`, the valid sub-range query `L = 0, R = 0` (with
`0 ≤ L ≤ R ≤ n-1 = 1`) should return `max a[0..0] = 1`; instead
`range_maximum` never returns at any recursion budget, because the
no-overlap branch tests only `L > r` (`br i1 %1`, ignoring the computed
`%3`), so the right child `[1,1]` recurses into itself forever. -/
theorem C1_subrange_query_diverges :
    buildUpTo 2 c1f 2 2 = some c1mem ∧
    ∀ fuel : Nat, range_maximum fuel c1mem 0 0 1 0 0 = none :=
  ⟨rfl, fun fuel => rangeMax_root01_stuck fuel c1mem⟩

/-- Claim C2 (refuted by the code): the call with node interval `[1, 1]` and
query bounds `L = 0, R = 0` satisfies `R < l` (no overlap) and should return
the sentinel `0`; instead it never returns, for any recursion budget. -/
theorem C2_no_overlap_no_sentinel :
    ∀ fuel : Nat, range_maximum fuel initMem 7 1 1 0 0 = none :=
  fun fuel => rangeMax_leaf_stuck fuel initMem 7

/-- Claim C3 (refuted by the code for `range_maximum`): the root query
`L = 0, R = 0` on `n = 2` (`l = 0`, `r = n-1 = 1`) has valid bounds
`0 ≤ L ≤ R ≤ n-1`, yet the call never returns at any recursion depth.
(`build` does terminate with depth `treeDepth (r-l).toNat`; see the claim
C10 theorem.) -/
theorem C3_valid_query_diverges :
    ∀ fuel : Nat, range_maximum fuel initMem 0 0 1 0 0 = none :=
  fun fuel => rangeMax_root01_stuck fuel initMem

/-- Claim C4: for every non-empty array (arbitrary `Int` values, negatives
included) of length `n ≤ 2^61`, after a full in-order build from the
all-zero tree, the full-range root query `[0, n-1]` returns the maximum of
the array and hands back the unchanged heap, at every positive fuel. -/
theorem C4_global_max (n : Nat) (f : Int → Int) (fuel : Nat) (hn1 : 1 ≤ n)
    (hn2 : n ≤ 2 ^ 61) (hfuel : treeDepth (n - 1) ≤ fuel) :
    ∃ a, buildUpTo fuel f n n = some a ∧
      ∀ qf : Nat, range_maximum (qf + 1) a 0 0 ((n : Int) - 1) 0 ((n : Int) - 1) =
        some (intervalMax f 0 ((n : Int) - 1), a) := by
  obtain ⟨a, ha, hok⟩ := fullBuild_nodesOk n f fuel hn1 hn2 hfuel
  refine ⟨a, ha, ?_⟩
  intro qf
  rw [range_maximum]
  rw [if_neg (show ¬(0 : Int) > (n : Int) - 1 by omega)]
  rw [if_pos (show (n : Int) - 1 ≤ (n : Int) - 1 ∧ (0 : Int) ≥ 0 by omega)]
  have hroot := nodesOk_rootval (n - 1) a f 0 0 hok
  have hcast : (0 : Int) + ((n - 1 : Nat) : Int) = (n : Int) - 1 := by omega
  rw [hcast] at hroot
  rw [show array_get a 0 = a 0 from rfl, hroot]

theorem C4_witness :
    ∃ a, buildUpTo 3 wfId 3 3 = some a ∧
      ∀ qf : Nat, range_maximum (qf + 1) a 0 0 (((3 : Nat) : Int) - 1) 0 (((3 : Nat) : Int) - 1) =
        some (intervalMax wfId 0 (((3 : Nat) : Int) - 1), a) :=
  C4_global_max 3 wfId 3 (by norm_num) (by norm_num) (by norm_num [treeDepth])

/-- Claim C5 counterexample: `build` at the root `(slot 0, [0, 3])` with
`target_idx = 3 ∈ [0, 3]` and `l ≤ r`, on the pre-state `c5mem` whose
internal slot 1 holds a stale `100`.  Slot 0 is on the recursion path (it is
the call's own slot), yet after the call it holds `100`, while the
post-update maximum of the leaf values of its subtree is `5`: the claim's
unconditional path guarantee fails for pre-states that do not already
satisfy the node invariant. -/
theorem subtreeLeafMax_zero (a : Mem) (p l : Int) : subtreeLeafMax 0 a p l = a p := by
  rw [subtreeLeafMax]

theorem C5_counterexample :
    build 3 c5mem 0 0 3 3 5 = some c5post ∧ onPath 3 0 0 3 0 = true ∧
    c5post 0 = 100 ∧ subtreeLeafMax 3 c5post 0 0 = 5 := by
  refine ⟨rfl, ?_, by decide, ?_⟩
  · rw [onPath]; simp
  · simp only [subtreeLeafMax]
    norm_num [subtreeLeafMax_zero]
    decide

/-- Claim C5 as amended: for an in-range call of `build` with
`target_idx ∈ [l, r]` and `l ≤ r`, the call terminates and — with no
precondition on the pre-state — every slot off the recursion path keeps
exactly the value it held before the call; and under the extra hypothesis
that the subtree of `(slot, l, r)` satisfies the node invariant before the
call (as it does in the intended lifecycle, starting from the all-zero
array), every slot on the recursion path ends up holding the maximum of the
(post-update) leaf values of its subtree. -/
theorem C5_build_path_frame (k fuel : Nat) (p l r idx val : Int) (a : Mem)
    (g : Int → Int) (hk : (r - l).toNat = k) (hlr : l ≤ r) (hlo : -2 ^ 63 ≤ l)
    (hhi : r < 2 ^ 63) (hp : 0 ≤ p) (hpb : (p + 2) * 2 ^ treeDepth k ≤ 2 ^ 63)
    (hfuel : treeDepth k ≤ fuel) (_hi1 : l ≤ idx) (_hi2 : idx ≤ r) :
    ∃ a', build fuel a p l r idx val = some a' ∧
      (∀ q, onPath k p l idx q = false → a' q = a q) ∧
      (NodesOk k a g p l = true → pathOk k a' p l idx = true) := by
  obtain ⟨a', e, fr, okimp⟩ :=
    build_master k fuel p l r idx val a g hk hlr hlo hhi hp hpb hfuel
  refine ⟨a', e, ?_, ?_⟩
  · intro q hq
    by_contra hne
    obtain ⟨-, -, hop⟩ := fr q hne
    rw [hq] at hop
    exact Bool.noConfusion hop
  · intro hok
    exact nodesOk_pathOk k a' (updateF g idx val) p l idx (okimp hok)

theorem C5_witness :
    ∃ a', build 2 initMem 0 0 1 0 7 = some a' ∧
      (∀ q, onPath 1 0 0 0 q = false → a' q = initMem q) ∧
      (NodesOk 1 initMem (fun _ => 0) 0 0 = true → pathOk 1 a' 0 0 0 = true) :=
  C5_build_path_frame 1 2 0 0 1 0 7 initMem (fun _ => 0) (by decide) (by decide)
    (by decide) (by decide) (by decide) (by norm_num [treeDepth])
    (by norm_num [treeDepth]) (by decide) (by decide)

/-- Claim C6: after a full in-order build of `n` elements from the all-zero
array, every tree node reachable from the root triple `(slot 0, 0, n-1)`
satisfies the node invariant: a leaf slot holds its array value, an internal
slot holds the max of the values stored at its children slots `2p+1` and
`2p+2`. -/
theorem C6_full_build_invariant (n : Nat) (f : Int → Int) (fuel : Nat)
    (hn1 : 1 ≤ n) (hn2 : n ≤ 2 ^ 61) (hfuel : treeDepth (n - 1) ≤ fuel) :
    ∃ a, buildUpTo fuel f n n = some a ∧ NodesOk (n - 1) a f 0 0 = true :=
  fullBuild_nodesOk n f fuel hn1 hn2 hfuel

theorem C6_witness :
    ∃ a, buildUpTo 3 wfId 3 3 = some a ∧ NodesOk (3 - 1) a wfId 0 0 = true :=
  C6_full_build_invariant 3 wfId 3 (by norm_num) (by norm_num) (by norm_num [treeDepth])

/-- Claim C7: a root `build` call whose target index lies outside `[0, n-1]`
returns normally (for any positive recursion budget) without writing: the
returned heap is the input heap itself, and no error is signalled. -/
theorem C7_out_of_range_noop (fuel : Nat) (a : Mem) (n idx val : Int)
    (h : idx < 0 ∨ idx > n - 1) :
    build (fuel + 1) a 0 0 (n - 1) idx val = some a := by
  rw [build, if_pos h]

theorem C7_witness : build (0 + 1) initMem 0 0 (4 - 1) 9 5 = some initMem :=
  C7_out_of_range_noop 0 initMem 4 9 5 (by norm_num)

/-- Claim C8 counterexample: at `p = 2^63 - 1` the i64 product `2p + 1`
wraps, so `left_child` returns `-1` rather than `2p + 1`; and at
`l = r = 2^63 - 1` the increment in `right_from` wraps to `-2^63`, so
`right_from ≠ left_until + 1` there. -/
theorem C8_counterexample :
    left_child (2 ^ 63 - 1) ≠ 2 * (2 ^ 63 - 1) + 1 ∧
    right_from (2 ^ 63 - 1) (2 ^ 63 - 1) ≠
      left_until (2 ^ 63 - 1) (2 ^ 63 - 1) + 1 := by
  constructor <;> decide

/-- Claim C8 as amended: the child-index and split-point identities hold
whenever the i64 arithmetic cannot wrap: `left_child p = 2p+1` and
`right_child p = 2p+2` for `-2^62 ≤ p ≤ 2^62 - 2`, and for non-negative
machine integers `l ≤ r ≤ 2^63 - 2`, `left_until l r = l + (r-l)/2` (floor
division) with `right_from l r = left_until l r + 1`. -/
theorem C8_index_arithmetic (p l r : Int) (hp1 : -2 ^ 62 ≤ p) (hp2 : p ≤ 2 ^ 62 - 2)
    (hl : 0 ≤ l) (hlr : l ≤ r) (hr : r ≤ 2 ^ 63 - 2) :
    left_child p = 2 * p + 1 ∧ right_child p = 2 * p + 2 ∧
    left_until l r = l + (r - l) / 2 ∧ right_from l r = left_until l r + 1 := by
  refine ⟨?_, ?_, ?_, ?_⟩
  · unfold left_child wrap; omega
  · unfold right_child wrap; omega
  · exact left_until_eq (by omega) hlr (by omega)
  · unfold right_from left_until lshr1 wrap; omega

theorem C8_witness :
    left_child 5 = 2 * 5 + 1 ∧ right_child 5 = 2 * 5 + 2 ∧
    left_until 3 10 = 3 + (10 - 3) / 2 ∧ right_from 3 10 = left_until 3 10 + 1 :=
  C8_index_arithmetic 5 3 10 (by norm_num) (by norm_num) (by norm_num)
    (by norm_num) (by norm_num)

/-- Claim C9: queries are read-only.  If `range_maximum` returns, the heap it
hands back is exactly the heap it was given, and repeating the identical
query on that heap returns the identical result. -/
theorem C9_query_readonly (fuel : Nat) (a : Mem) (p l r L R v : Int) (a' : Mem)
    (h : range_maximum fuel a p l r L R = some (v, a')) :
    a' = a ∧ range_maximum fuel a' p l r L R = some (v, a') := by
  have ha := rangeMax_pure fuel a p l r L R v a' h
  subst ha
  exact ⟨rfl, h⟩

theorem C9_witness :
    initMem = initMem ∧ range_maximum 1 initMem 0 0 0 0 0 = some (0, initMem) :=
  C9_query_readonly 1 initMem 0 0 0 0 0 0 initMem rfl

/-- Claim C10: `build` terminates for every in-range i64 call with `l ≤ r`,
regardless of `idx`, `val` and `p`, within recursion depth
`treeDepth (r - l).toNat`; and when `l < r` the split point satisfies
`l ≤ left_until l r < r`, so both recursive calls get strictly shorter,
non-empty intervals. -/
theorem C10_build_terminates (a : Mem) (p l r idx val : Int)
    (hlo : -2 ^ 63 ≤ l) (hlr : l ≤ r) (hhi : r < 2 ^ 63) :
    (build (treeDepth (r - l).toNat) a p l r idx val).isSome = true ∧
    (l < r → l ≤ left_until l r ∧ left_until l r < r) := by
  constructor
  · exact build_total (r - l).toNat (treeDepth (r - l).toNat) l r rfl hlo hlr hhi
      le_rfl a p idx val
  · intro hlt
    rw [left_until_eq hlo hlr hhi]
    omega

theorem C10_witness :
    (build (treeDepth ((10 : Int) - 0).toNat) initMem 3 0 10 4 7).isSome = true ∧
    ((0 : Int) < 10 → (0 : Int) ≤ left_until 0 10 ∧ left_until 0 10 < 10) :=
  C10_build_terminates initMem 3 0 10 4 7 (by norm_num) (by norm_num) (by norm_num)
